import Mathlib

/-!
Verification of the hwpx-mcp-server core editing engine
(`core/search.py`, `core/content.py`, `core/formatting.py`)
via a shallow embedding: run texts are `List Char`, paragraphs are lists
of runs, tables are grids of cells, and each Python function is translated
into an executable Lean definition.
-/

namespace Hwpx

/-- Python `s.count(find)` for a scan position list: counts non-overlapping
occurrences left to right, advancing by `find.length` after a hit and by one
character after a miss.  Fuel-indexed so that the recursion is structural;
`fuel ≥ s.length` makes the result independent of the fuel. -/
def pyCountAux (find : List Char) : Nat → List Char → Nat
  | 0, _ => 0
  | _ + 1, [] => 0
  | fuel + 1, c :: rest =>
    if find ≠ [] ∧ find.isPrefixOf (c :: rest) then
      1 + pyCountAux find fuel ((c :: rest).drop find.length)
    else
      pyCountAux find fuel rest

/-- Python `s.count(find)` (for a non-empty needle; an empty needle gives 0
here, a case every caller in the source rejects first). -/
def pyCount (find s : List Char) : Nat :=
  pyCountAux find s.length s

/-- Python `s.replace(find, repl)`: replaces non-overlapping occurrences
left to right.  Fuel-indexed structural recursion, as for `pyCountAux`. -/
def pyReplaceAux (find repl : List Char) : Nat → List Char → List Char
  | 0, s => s
  | _ + 1, [] => []
  | fuel + 1, c :: rest =>
    if find ≠ [] ∧ find.isPrefixOf (c :: rest) then
      repl ++ pyReplaceAux find repl fuel ((c :: rest).drop find.length)
    else
      c :: pyReplaceAux find repl fuel rest

/-- Python `s.replace(find, repl)` (non-empty needle). -/
def pyReplace (find repl s : List Char) : List Char :=
  pyReplaceAux find repl s.length s

/-- Python `find in s` for a non-empty `find`, which is equivalent to
`s.count(find) > 0`. -/
def pyContains (find s : List Char) : Bool :=
  0 < pyCount find s

/-! Section: `_distribute_lengths` (core/search.py lines 9–44) -/

/-- Python `shares[i] += 1` (the index is always in bounds at every call
site; `List.set` out of bounds would be the identity). -/
def bumpAt (shares : List Nat) (i : Nat) : List Nat :=
  shares.set i (shares.getD i 0 + 1)

/-- Python `shares[-1] += r`. -/
def bumpLast (shares : List Nat) (r : Nat) : List Nat :=
  shares.set (shares.length - 1) (shares.getD (shares.length - 1) 0 + r)

/-- The comparison realised by Python's stable sort with key
`(-item[0], item[1])`: larger residual first, ties by index ascending. -/
def residualLE (a b : Nat × Nat) : Bool :=
  decide (b.1 < a.1 ∨ (a.1 = b.1 ∧ a.2 ≤ b.2))

def insertResidual (x : Nat × Nat) : List (Nat × Nat) → List (Nat × Nat)
  | [] => [x]
  | y :: ys => if residualLE x y then x :: y :: ys else y :: insertResidual x ys

/-- Model of `residuals.sort(key=lambda item: (-item[0], item[1]))`.  Insertion sort
computes the same list as Python's stable sort: `residualLE` is a total order
that is antisymmetric whenever the index components are pairwise distinct,
which holds for every list built by `_distribute_lengths`. -/
def sortResiduals : List (Nat × Nat) → List (Nat × Nat)
  | [] => []
  | x :: xs => insertResidual x (sortResiduals xs)

/-- The `while remainder > 0 and residuals:` loop of `_distribute_lengths`:
`order` is the index column of the sorted residual list, `cursor` cycles over
it.  Returns the updated shares together with the remainder still unhandled
when the loop exited because `residuals` was empty. -/
def handOut (order : List Nat) : List Nat → Nat → Nat → List Nat × Nat
  | shares, _, 0 => (shares, 0)
  | shares, cursor, r + 1 =>
    if order.isEmpty then (shares, r + 1)
    else handOut order (bumpAt shares (order.getD cursor 0)) ((cursor + 1) % order.length) r

/-- The degenerate all-zero-weights branch of `_distribute_lengths`:
`base = total // len(weights)`, `remainder = total - base * len(weights)`,
then `shares[index] += 1` for each index below the remainder. -/
def distributeEven (total n : Nat) : List Nat :=
  (List.range (total - total / n * n)).foldl (fun s i => bumpAt s i)
    (List.replicate n (total / n))

/-- The proportional branch of `_distribute_lengths`: floor base shares,
residual-sorted leftover hand-out, and the final `shares[-1] += remainder`
fix-up (which only fires when the hand-out loop exited on an empty residual
list). -/
def distributeProportional (total : Nat) (weights : List Nat) : List Nat :=
  let weightSum := weights.sum
  let raws := weights.map (fun w => total * w)
  let shares := raws.map (fun raw => raw / weightSum)
  let remainder := total - shares.sum
  let residuals := (raws.map (fun raw => raw % weightSum)).enum.map
    (fun p => (p.2, p.1))
  let order := (sortResiduals residuals).map (fun p => p.2)
  let out := handOut order shares 0 remainder
  if 0 < out.2 then bumpLast out.1 out.2 else out.1

/-- Model of `_distribute_lengths(total, weights)`.  `total` is a string length, hence
a natural number; Python's `total <= 0` branch is the `total = 0` branch
here. -/
def distributeLengths (total : Nat) (weights : List Nat) : List Nat :=
  if weights = [] then []
  else if total = 0 then weights.map (fun _ => 0)
  else if weights.sum = 0 then distributeEven total weights.length
  else distributeProportional total weights

/-- Vocabulary for stating the hand-out clause of the spec: the floor base
share `total * weight / sum(weights)` of entry `j`. -/
def baseShare (total : Nat) (weights : List Nat) (j : Nat) : Nat :=
  total * weights.getD j 0 / weights.sum

/-- Vocabulary for stating the hand-out clause of the spec: the fractional
remainder `(total * weight) % sum(weights)` of entry `j`, by which the
leftover hand-out is prioritised. -/
def fracResidual (total : Nat) (weights : List Nat) (j : Nat) : Nat :=
  total * weights.getD j 0 % weights.sum

/-- Vocabulary for stating the hand-out clause of the spec: entry `k`
precedes entry `j` in the leftover hand-out when it has a strictly larger
fractional remainder, or an equal remainder and a smaller original index. -/
def higherPriority (total : Nat) (weights : List Nat) (k j : Nat) : Prop :=
  fracResidual total weights j < fracResidual total weights k ∨
    (fracResidual total weights k = fracResidual total weights j ∧ k < j)

/-- The comparison `residualLE` as a relation on residual/index pairs. -/
def residualRel (a b : Nat × Nat) : Prop :=
  residualLE a b = true

/-! Section: Cross-run replace engine (core/search.py lines 47–126)

A run is represented by its text (`List Char`); mutating `run.text` becomes
returning the updated text in place in the run list. -/

/-- One iteration of the `_replace_within_runs` loop: skip the run if its
text is empty or does not contain `find` (`expected <= 0` is subsumed, since
containment is `count > 0`); otherwise replace every occurrence and report
the pre-replace count (both the library `replace_text` path and the
`run.text = run_text.replace(...)` fallback do exactly that). -/
def replaceWithinRun (find repl run : List Char) : List Char × Nat :=
  if run = [] ∨ ¬ pyContains find run then (run, 0)
  else (pyReplace find repl run, pyCount find run)

/-- Model of `_replace_within_runs(runs, find_text, replace_text)`: every run is
processed independently; returns the updated run texts and the summed
count. -/
def replaceWithinRuns (find repl : List Char) : List (List Char) → List (List Char) × Nat
  | [] => ([], 0)
  | run :: rest =>
    let head := replaceWithinRun find repl run
    let tail := replaceWithinRuns find repl rest
    (head.1 :: tail.1, head.2 + tail.2)

/-- The redistribution loop of `_replace_across_runs`:
`run.text = new_merged[cursor : cursor + size]; cursor += size` — Python
slices clamp out-of-range bounds exactly as `take`/`drop` do. -/
def sliceAlong : List Char → List Nat → List (List Char)
  | _, [] => []
  | m, n :: rest => m.take n :: sliceAlong (m.drop n) rest

/-- Model of `_replace_across_runs(runs, find_text, replace_text)`. -/
def replaceAcrossRuns (runs : List (List Char)) (find repl : List Char) :
    List (List Char) × Nat :=
  if runs = [] ∨ find = [] then (runs, 0)
  else
    let merged := runs.flatten
    if ¬ pyContains find merged then (runs, 0)
    else
      let newMerged := pyReplace find repl merged
      let weights := runs.map List.length
      (sliceAlong newMerged (distributeLengths newMerged.length weights),
        pyCount find merged)

/-- Model of `_replace_in_runs(runs, find_text, replace_text)`: the within-run phase,
then the cross-run phase only when `find` still occurs in the concatenation
of the phase-1 texts. -/
def replaceInRuns (runs : List (List Char)) (find repl : List Char) :
    List (List Char) × Nat :=
  if runs = [] then (runs, 0)
  else
    let step1 := replaceWithinRuns find repl runs
    if pyContains find step1.1.flatten then
      let step2 := replaceAcrossRuns step1.1 find repl
      (step2.1, step1.2 + step2.2)
    else step1

/-! Section: Search engine (`find_in_doc`, core/search.py lines 174–201) -/

/-- Python `haystack.find(needle, cursor)` for a non-empty needle: the
smallest position `p ≥ cursor` at which `needle` occurs, else `none`
(Python's `-1`). -/
def pyFind (needle hay : List Char) (cursor : Nat) : Option Nat :=
  (List.range (hay.length + 1)).find? (fun p =>
    cursor ≤ p && needle.isPrefixOf (hay.drop p))

structure FindMatch where
  paragraphIndex : Nat
  position : Nat
  context : List Char
deriving DecidableEq, Repr

/-- The inner `while True` scan of `find_in_doc` over one paragraph, for the
`match_case=True` path all the claims exercise.  `context` is
`haystack_raw[max(0, pos-20) : min(len, pos+len(needle)+20)]`; natural
subtraction realises the `max(0, ·)` clamp.  Returns the extended match list
and whether the `max_results` early return fired.  The fuel argument only
makes the recursion structural; `hay.length + 1` iterations can never be
exceeded because the cursor strictly increases. -/
def scanParagraph (needle hay : List Char) (idx maxResults : Nat) :
    Nat → Nat → List FindMatch → List FindMatch × Bool
  | 0, _, acc => (acc, false)
  | fuel + 1, cursor, acc =>
    match pyFind needle hay cursor with
    | none => (acc, false)
    | some pos =>
      let ctxStart := pos - 20
      let ctxEnd := min hay.length (pos + needle.length + 20)
      let acc' := acc ++ [⟨idx, pos, (hay.drop ctxStart).take (ctxEnd - ctxStart)⟩]
      if maxResults ≤ acc'.length then (acc', true)
      else scanParagraph needle hay idx maxResults fuel (pos + max 1 needle.length) acc'

/-- The outer paragraph loop of `find_in_doc`: returns as soon as a
paragraph scan reports that the result cap was reached. -/
def findLoop (needle : List Char) (maxResults : Nat) :
    List (List Char) → Nat → List FindMatch → List FindMatch
  | [], _, acc => acc
  | hay :: rest, idx, acc =>
    let out := scanParagraph needle hay idx maxResults (hay.length + 1) 0 acc
    if out.2 then out.1 else findLoop needle maxResults rest (idx + 1) out.1

/-- Model of `find_in_doc(doc, text_to_find, match_case=True, max_results)`:
paragraphs are given by their logical text; `none` models the `ValueError`
on an empty search string; the second component is the reported
`total_matches`, which the source computes as `len(matches)`. -/
def findInDoc (paragraphs : List (List Char)) (needle : List Char)
    (maxResults : Nat) : Option (List FindMatch × Nat) :=
  if needle = [] then none
  else
    let ms := findLoop needle maxResults paragraphs 0 []
    some (ms, ms.length)

/-! Section: Whole-document and batch replace (core/search.py lines 204–280) -/

/-- One paragraph step of `replace_in_doc` for a table-free, run-backed
document.  The source's `para.text` fallback branch is guarded by
`replaced == 0 and find_text in para.text`; `para.text` is the
concatenation of the run texts, and `replaceInRuns_zero` below shows the
engine never reports zero while that concatenation still contains the
needle, so for run-backed paragraphs the fallback is unreachable, and for a
run-less paragraph the text is empty and the guard fails; the branch is
therefore the identity. -/
def replaceParagraph (find repl : List Char) (runs : List (List Char)) :
    List (List Char) × Nat :=
  if runs = [] then (runs, 0) else replaceInRuns runs find repl

/-- Model of `replace_in_doc(doc, find_text, replace_text)` over a table-free
document: every paragraph is processed in order and the counts are summed.
The empty-`find_text` `ValueError` is handled a level up, in
`batchReplaceInDoc`, matching the call chain of `batch_replace_in_doc`. -/
def replaceInDoc (find repl : List Char) :
    List (List (List Char)) → List (List (List Char)) × Nat
  | [] => ([], 0)
  | p :: ps =>
    let h := replaceParagraph find repl p
    let t := replaceInDoc find repl ps
    (h.1 :: t.1, h.2 + t.2)

/-- Model of `batch_replace_in_doc(doc, replacements)`: pairs are validated and
applied one at a time, in order.  The state component carries the document
as mutated so far; the second component is `some total` on success and
`none` when a pair with an empty `find` raised `ValueError` (leaving the
document in whatever state the earlier pairs produced). -/
def batchReplaceInDoc :
    List (List (List Char)) → List (List Char × List Char) →
      List (List (List Char)) × Option Nat
  | doc, [] => (doc, some 0)
  | doc, (f, r) :: rest =>
    if f = [] then (doc, none)
    else
      let step := replaceInDoc f r doc
      let out := batchReplaceInDoc step.1 rest
      match out.2 with
      | some t => (out.1, some (step.2 + t))
      | none => (out.1, none)

/-! Section: Tables and paragraphs (core/content.py) -/

/-- A table cell: its `cellSpan` metadata (modelled as present, which is the
round-trip claim's hypothesis; `merge_cells_in_table` raises when the anchor
lacks it) and its text. -/
structure Cell where
  rowSpan : Nat
  colSpan : Nat
  text : List Char
deriving DecidableEq, Repr

instance : Inhabited Cell := ⟨⟨1, 1, []⟩⟩

abbrev TableGrid := List (List Cell)

/-- A paragraph as the content model sees it: its runs' texts and the tables
anchored to it. -/
structure Paragraph where
  runs : List (List Char)
  tables : List TableGrid
deriving DecidableEq, Repr

instance : Inhabited Paragraph := ⟨⟨[], []⟩⟩

/-- Replace the cell at `(r, c)` of a grid. -/
def updateCell (t : TableGrid) (r c : Nat) (f : Cell → Cell) : TableGrid :=
  t.set r ((t.getD r []).set c (f ((t.getD r []).getD c default)))

/-- Row-major coordinates of the rectangle `[sr..er] × [sc..ec]`, as the two
nested `range` loops of the source produce them. -/
def rectIndices (sr sc er ec : Nat) : List (Nat × Nat) :=
  ((List.range (er + 1 - sr)).map (fun dr =>
    (List.range (ec + 1 - sc)).map (fun dc => (sr + dr, sc + dc)))).flatten

/-- Model of `merge_cells_in_table` (content.py 142–179) after the table lookup:
coordinate validation, anchor span update, then every other cell of the
rectangle gets span `(0, 0)` and empty text. -/
def mergeCells (t : TableGrid) (startRow startCol endRow endCol : Nat) :
    Option TableGrid :=
  if startRow > endRow ∨ startCol > endCol then none
  else if endRow ≥ t.length then none
  else if endCol ≥ (t.getD startRow []).length then none
  else
    let t₁ := updateCell t startRow startCol (fun cell =>
      { cell with rowSpan := endRow - startRow + 1, colSpan := endCol - startCol + 1 })
    some ((rectIndices startRow startCol endRow endCol).foldl
      (fun acc rc =>
        if rc = (startRow, startCol) then acc
        else updateCell acc rc.1 rc.2 (fun cell =>
          { cell with rowSpan := 0, colSpan := 0, text := [] }))
      t₁)

/-- Model of `split_cell_in_table` (content.py 182–216) after the table lookup:
reads the cell's span, resets the anchor to `(1, 1)`, then walks the former
rectangle (clipped to the grid, skipping the anchor) resetting spans to
`(1, 1)`; text is not touched.  Returns the updated grid and the original
span. -/
def splitCell (t : TableGrid) (row col : Nat) : Option (TableGrid × Nat × Nat) :=
  if row ≥ t.length then none
  else if col ≥ (t.getD row []).length then none
  else
    let cell := (t.getD row []).getD col default
    let original := (cell.rowSpan, cell.colSpan)
    let t₁ := updateCell t row col (fun c => { c with rowSpan := 1, colSpan := 1 })
    some ((rectIndices row col (row + max 1 original.1 - 1)
        (col + max 1 original.2 - 1)).foldl
      (fun acc rc =>
        if rc.1 ≥ t.length then acc
        else if rc.2 ≥ (t.getD rc.1 []).length ∨ rc = (row, col) then acc
        else updateCell acc rc.1 rc.2 (fun c => { c with rowSpan := 1, colSpan := 1 }))
      t₁, original)

/-- Model of `set_cell_text` (content.py 129–139) after the table lookup: bounds
checks, then `cell.text = text`. -/
def setCellTextInTable (t : TableGrid) (row col : Nat) (txt : List Char) :
    Option TableGrid :=
  if row ≥ t.length then none
  else if col ≥ (t.getD row []).length then none
  else some (updateCell t row col (fun c => { c with text := txt }))

/-- Model of `_iter_tables(doc)` (content.py 21–24): one yield per
paragraph→table reference, in paragraph order; a table is represented by an
identity token so that reference sharing across paragraphs is expressible. -/
def iterTables (paraTables : List (List Nat)) : List Nat :=
  paraTables.flatten

/-- Model of `delete_paragraph_from_doc(doc, paragraph_index)` (content.py 78–99) for
a single-section document.  `none` models the index `ValueError`.  In the
single-paragraph branch the source runs `run.text = \x22\x22` over the
target's runs; per the document-library interface (spec §6) a run's text and
a table are distinct objects, so the paragraph's tables are untouched.  The
reported count is `total` in that branch and `total - 1` otherwise. -/
def deleteParagraphFromDoc (doc : List Paragraph) (idx : Nat) :
    Option (List Paragraph × Nat) :=
  if idx ≥ doc.length then none
  else if doc.length ≤ 1 then
    let target := doc.getD idx default
    some (doc.set idx { target with runs := target.runs.map (fun _ => []) },
      doc.length)
  else
    some (doc.eraseIdx idx, doc.length - 1)

/-! Section: Styles (`create_style_in_doc`, core/formatting.py lines 112–140) -/

structure Style where
  name : List Char
  engName : List Char
deriving DecidableEq, Repr

/-- Python `str.strip()` (whitespace on both ends). -/
def pyStrip (s : List Char) : List Char :=
  ((s.dropWhile Char.isWhitespace).reverse.dropWhile Char.isWhitespace).reverse

/-- Model of `create_style_in_doc(doc, style_name, ...)`: the formatting arguments are
discarded by the source (`del font_size, font_name, color`; the run-format
helper is inert), so only the style table matters.  `none` models both
raises (`ValueError` on a blank name, `RuntimeError` on an empty style
table); an existing name returns the table unchanged; otherwise the last
entry is renamed in place. -/
def createStyleInDoc (styles : List Style) (styleName : List Char) :
    Option (List Style) :=
  let name := pyStrip styleName
  if name = [] then none
  else if styles.any (fun st => st.name = name) then some styles
  else
    match styles.getLast? with
    | none => none
    | some target =>
      some (styles.dropLast ++ [{ target with name := name, engName := name }])


theorem pyCountAux_fuel_irrel (find : List Char) :
    ∀ fuel₁ fuel₂ s, s.length ≤ fuel₁ → s.length ≤ fuel₂ →
      pyCountAux find fuel₁ s = pyCountAux find fuel₂ s := by
  intro fuel₁
  induction fuel₁ using Nat.strong_induction_on with
  | _ fuel₁ ih =>
    intro fuel₂ s h₁ h₂
    match fuel₁, fuel₂, s with
    | 0, f₂, s =>
      have : s = [] := List.eq_nil_of_length_eq_zero (Nat.le_zero.mp h₁)
      subst this
      cases f₂ <;> rfl
    | _ + 1, 0, s =>
      have : s = [] := List.eq_nil_of_length_eq_zero (Nat.le_zero.mp h₂)
      subst this
      rfl
    | f₁ + 1, f₂ + 1, [] => rfl
    | f₁ + 1, f₂ + 1, c :: rest =>
      simp only [pyCountAux]
      have hr₁ : rest.length ≤ f₁ := by simpa using h₁
      have hr₂ : rest.length ≤ f₂ := by simpa using h₂
      by_cases hcond : find ≠ [] ∧ find.isPrefixOf (c :: rest)
      · simp only [if_pos hcond]
        have hfind : 1 ≤ find.length := by
          cases hfd : find with
          | nil => exact absurd hfd hcond.1
          | cons a l => simp
        have hdrop : ((c :: rest).drop find.length).length ≤ f₁ := by
          simp only [List.length_drop]
          omega
        have hdrop₂ : ((c :: rest).drop find.length).length ≤ f₂ := by
          simp only [List.length_drop]
          omega
        rw [ih f₁ (Nat.lt_succ_self _) f₂ _ hdrop hdrop₂]
      · simp only [if_neg hcond]
        exact ih f₁ (Nat.lt_succ_self _) f₂ rest hr₁ hr₂

theorem pyReplaceAux_fuel_irrel (find repl : List Char) :
    ∀ fuel₁ fuel₂ s, s.length ≤ fuel₁ → s.length ≤ fuel₂ →
      pyReplaceAux find repl fuel₁ s = pyReplaceAux find repl fuel₂ s := by
  intro fuel₁
  induction fuel₁ using Nat.strong_induction_on with
  | _ fuel₁ ih =>
    intro fuel₂ s h₁ h₂
    match fuel₁, fuel₂, s with
    | 0, f₂, s =>
      have : s = [] := List.eq_nil_of_length_eq_zero (Nat.le_zero.mp h₁)
      subst this
      cases f₂ <;> rfl
    | _ + 1, 0, s =>
      have : s = [] := List.eq_nil_of_length_eq_zero (Nat.le_zero.mp h₂)
      subst this
      rfl
    | f₁ + 1, f₂ + 1, [] => rfl
    | f₁ + 1, f₂ + 1, c :: rest =>
      simp only [pyReplaceAux]
      have hr₁ : rest.length ≤ f₁ := by simpa using h₁
      have hr₂ : rest.length ≤ f₂ := by simpa using h₂
      by_cases hcond : find ≠ [] ∧ find.isPrefixOf (c :: rest)
      · simp only [if_pos hcond]
        have hfind : 1 ≤ find.length := by
          cases hfd : find with
          | nil => exact absurd hfd hcond.1
          | cons a l => simp
        have hdrop : ((c :: rest).drop find.length).length ≤ f₁ := by
          simp only [List.length_drop]
          omega
        have hdrop₂ : ((c :: rest).drop find.length).length ≤ f₂ := by
          simp only [List.length_drop]
          omega
        rw [ih f₁ (Nat.lt_succ_self _) f₂ _ hdrop hdrop₂]
      · simp only [if_neg hcond]
        rw [ih f₁ (Nat.lt_succ_self _) f₂ rest hr₁ hr₂]

theorem pyCount_nil (find : List Char) : pyCount find [] = 0 := rfl

theorem pyCount_cons_hit (find : List Char) (c : Char) (rest : List Char)
    (hne : find ≠ []) (hpre : find.isPrefixOf (c :: rest)) :
    pyCount find (c :: rest) = 1 + pyCount find ((c :: rest).drop find.length) := by
  have hfind : 1 ≤ find.length := by
    cases hfd : find with
    | nil => exact absurd hfd hne
    | cons a l => simp
  show pyCountAux find (rest.length + 1) (c :: rest) = _
  simp only [pyCountAux, if_pos (And.intro hne hpre)]
  rw [pyCountAux_fuel_irrel find rest.length ((c :: rest).drop find.length).length
    ((c :: rest).drop find.length) (by simp [List.length_drop]; omega) (Nat.le_refl _)]
  rfl

theorem pyCount_cons_miss (find : List Char) (c : Char) (rest : List Char)
    (h : ¬(find ≠ [] ∧ find.isPrefixOf (c :: rest))) :
    pyCount find (c :: rest) = pyCount find rest := by
  show pyCountAux find (rest.length + 1) (c :: rest) = _
  simp only [pyCountAux, if_neg h]
  exact pyCountAux_fuel_irrel find rest.length rest.length rest (Nat.le_refl _) (Nat.le_refl _)

theorem pyReplace_nil (find repl : List Char) : pyReplace find repl [] = [] := rfl

theorem pyReplace_cons_hit (find repl : List Char) (c : Char) (rest : List Char)
    (hne : find ≠ []) (hpre : find.isPrefixOf (c :: rest)) :
    pyReplace find repl (c :: rest) =
      repl ++ pyReplace find repl ((c :: rest).drop find.length) := by
  have hfind : 1 ≤ find.length := by
    cases hfd : find with
    | nil => exact absurd hfd hne
    | cons a l => simp
  show pyReplaceAux find repl (rest.length + 1) (c :: rest) = _
  simp only [pyReplaceAux, if_pos (And.intro hne hpre)]
  rw [pyReplaceAux_fuel_irrel find repl rest.length ((c :: rest).drop find.length).length
    ((c :: rest).drop find.length) (by simp [List.length_drop]; omega) (Nat.le_refl _)]
  rfl

theorem pyReplace_cons_miss (find repl : List Char) (c : Char) (rest : List Char)
    (h : ¬(find ≠ [] ∧ find.isPrefixOf (c :: rest))) :
    pyReplace find repl (c :: rest) = c :: pyReplace find repl rest := by
  show pyReplaceAux find repl (rest.length + 1) (c :: rest) = _
  simp only [pyReplaceAux, if_neg h]
  rfl
/-! Section: Helper lemmas about `_distribute_lengths` -/

theorem bumpAt_length (s : List Nat) (i : Nat) : (bumpAt s i).length = s.length := by
  simp [bumpAt]

theorem bumpAt_sum (s : List Nat) (i : Nat) (h : i < s.length) :
    (bumpAt s i).sum = s.sum + 1 := by
  induction s generalizing i with
  | nil => simp at h
  | cons a t ih =>
    cases i with
    | zero => simp [bumpAt]; omega
    | succ j =>
      have hj : j < t.length := by simpa using h
      have : bumpAt (a :: t) (j + 1) = a :: bumpAt t j := by
        simp [bumpAt]
      rw [this]
      simp [ih j hj]
      omega

theorem bumpAt_getD (s : List Nat) (i j : Nat) (hj : j < s.length) :
    (bumpAt s i).getD j 0 = s.getD j 0 + if i = j then 1 else 0 := by
  induction s generalizing i j with
  | nil => simp at hj
  | cons a t ih =>
    cases i with
    | zero =>
      cases j with
      | zero => simp [bumpAt]
      | succ j' => simp [bumpAt]
    | succ i' =>
      have hstep : bumpAt (a :: t) (i' + 1) = a :: bumpAt t i' := by
        simp [bumpAt]
      cases j with
      | zero => simp [hstep]
      | succ j' =>
        have hj' : j' < t.length := by simpa using hj
        rw [hstep, List.getD_cons_succ, List.getD_cons_succ, ih i' j' hj']
        have hiff : (i' + 1 = j' + 1) ↔ (i' = j') := by omega
        by_cases h : i' = j'
        · rw [if_pos h, if_pos (hiff.mpr h)]
        · rw [if_neg h, if_neg (fun hc => h (hiff.mp hc))]

theorem foldl_bumpAt_length (l : List Nat) (s : List Nat) :
    (l.foldl bumpAt s).length = s.length := by
  induction l generalizing s with
  | nil => rfl
  | cons i t ih => simp [List.foldl_cons, ih, bumpAt_length]

theorem foldl_bumpAt_sum (l : List Nat) (s : List Nat) (h : ∀ i ∈ l, i < s.length) :
    (l.foldl bumpAt s).sum = s.sum + l.length := by
  induction l generalizing s with
  | nil => simp
  | cons i t ih =>
    have hi : i < s.length := h i (List.mem_cons_self i t)
    have hrest : ∀ j ∈ t, j < (bumpAt s i).length := by
      intro j hjmem
      rw [bumpAt_length]
      exact h j (List.mem_cons_of_mem _ hjmem)
    simp only [List.foldl_cons]
    rw [ih (bumpAt s i) hrest, bumpAt_sum s i hi]
    simp only [List.length_cons]
    omega

theorem foldl_bumpAt_getD (l : List Nat) (s : List Nat) (j : Nat) (hj : j < s.length) :
    (l.foldl bumpAt s).getD j 0 = s.getD j 0 + l.count j := by
  induction l generalizing s with
  | nil => simp
  | cons i t ih =>
    simp only [List.foldl_cons]
    rw [ih (bumpAt s i) (by rw [bumpAt_length]; exact hj), bumpAt_getD s i j hj]
    by_cases hij : i = j
    · subst hij
      simp [List.count_cons]
      omega
    · simp [List.count_cons, hij]

theorem count_range (j n : Nat) : (List.range n).count j = if j < n then 1 else 0 := by
  by_cases h : j < n
  · rw [if_pos h]
    exact List.count_eq_one_of_mem (List.nodup_range n) (List.mem_range.mpr h)
  · rw [if_neg h]
    exact List.count_eq_zero_of_not_mem (by simpa using h)

theorem handOut_length (order : List Nat) :
    ∀ r s cursor, ((handOut order s cursor r).1).length = s.length := by
  intro r
  induction r with
  | zero => intro s cursor; rfl
  | succ r' ih =>
    intro s cursor
    by_cases h : order.isEmpty
    · simp [handOut, h]
    · simp only [handOut, h, Bool.false_eq_true, if_false, if_neg]
      rw [ih, bumpAt_length]

theorem handOut_spec (order : List Nat) (hne : order ≠ []) (n : Nat)
    (hmem : ∀ i ∈ order, i < n) :
    ∀ r s cursor, s.length = n →
      (handOut order s cursor r).1.sum = s.sum + r ∧ (handOut order s cursor r).2 = 0 := by
  have hpos : 0 < n := by
    cases order with
    | nil => exact absurd rfl hne
    | cons o t => exact Nat.lt_of_le_of_lt (Nat.zero_le o) (hmem o (List.mem_cons_self o t))
  intro r
  induction r with
  | zero => intro s cursor hlen; exact ⟨by simp [handOut], rfl⟩
  | succ r' ih =>
    intro s cursor hlen
    have hemp : order.isEmpty = false := by
      cases order with
      | nil => exact absurd rfl hne
      | cons o t => rfl
    have htarget : order.getD cursor 0 < n := by
      by_cases hc : cursor < order.length
      · exact hmem _ (by rw [List.getD_eq_getElem order 0 hc]; exact List.getElem_mem hc)
      · rw [List.getD_eq_default order 0 (Nat.le_of_not_lt hc)]
        exact hpos
    have hlen' : (bumpAt s (order.getD cursor 0)).length = n := by
      rw [bumpAt_length]; exact hlen
    have step := ih (bumpAt s (order.getD cursor 0)) ((cursor + 1) % order.length) hlen'
    constructor
    · simp only [handOut, hemp, Bool.false_eq_true, if_false, if_neg]
      rw [step.1, bumpAt_sum s _ (by rw [hlen]; exact htarget)]
      omega
    · simp only [handOut, hemp, Bool.false_eq_true, if_false, if_neg]
      exact step.2

theorem insertResidual_perm (x : Nat × Nat) (l : List (Nat × Nat)) :
    List.Perm (insertResidual x l) (x :: l) := by
  induction l with
  | nil => exact List.Perm.refl _
  | cons y ys ih =>
    by_cases h : residualLE x y
    · simp [insertResidual, h]
    · simp only [insertResidual, h, Bool.false_eq_true, if_false, if_neg]
      exact List.Perm.trans (List.Perm.cons y ih) (List.Perm.swap x y ys)

theorem sortResiduals_perm (l : List (Nat × Nat)) :
    List.Perm (sortResiduals l) l := by
  induction l with
  | nil => exact List.Perm.refl _
  | cons x xs ih =>
    exact List.Perm.trans (insertResidual_perm x (sortResiduals xs)) (List.Perm.cons x ih)

theorem sum_map_div_le (W : Nat) (l : List Nat) :
    (l.map (fun a => a / W)).sum ≤ l.sum / W := by
  induction l with
  | nil => simp
  | cons a t ih =>
    rcases Nat.eq_zero_or_pos W with hW | hW
    · simp [hW]
    · simp only [List.map_cons, List.sum_cons]
      have hdiv : a / W + t.sum / W ≤ (a + t.sum) / W := by
        rw [Nat.le_div_iff_mul_le hW, Nat.add_mul]
        exact Nat.add_le_add (Nat.div_mul_le_self a W) (Nat.div_mul_le_self t.sum W)
      exact Nat.le_trans (Nat.add_le_add_left ih _) hdiv

theorem sum_map_mul (total : Nat) (l : List Nat) :
    (l.map (fun w => total * w)).sum = total * l.sum := by
  induction l with
  | nil => simp
  | cons a t ih => simp [ih, Nat.mul_add]

theorem baseShares_sum_le (total : Nat) (weights : List Nat) (hW : weights.sum ≠ 0) :
    ((weights.map (fun w => total * w)).map (fun raw => raw / weights.sum)).sum ≤ total := by
  have h1 := sum_map_div_le weights.sum (weights.map (fun w => total * w))
  rw [sum_map_mul] at h1
  rw [Nat.mul_div_cancel total (Nat.pos_of_ne_zero hW)] at h1
  exact h1

theorem bumpLast_length (s : List Nat) (r : Nat) : (bumpLast s r).length = s.length := by
  simp [bumpLast]

theorem distributeEven_length (total n : Nat) : (distributeEven total n).length = n := by
  rw [distributeEven, foldl_bumpAt_length, List.length_replicate]

theorem distributeEven_sum (total n : Nat) (hn : n ≠ 0) :
    (distributeEven total n).sum = total := by
  have hpos : 0 < n := Nat.pos_of_ne_zero hn
  have hmod : total - total / n * n = total % n := by
    have h1 := Nat.div_add_mod total n
    have h2 : n * (total / n) = total / n * n := Nat.mul_comm _ _
    omega
  have hrem : total % n < n := Nat.mod_lt total hpos
  rw [distributeEven, hmod, foldl_bumpAt_sum]
  · have hrepl : (List.replicate n (total / n)).sum = n * (total / n) := by
      simp [List.sum_replicate, smul_eq_mul]
    rw [hrepl, List.length_range]
    have := Nat.div_add_mod total n
    omega
  · intro i hi
    rw [List.length_replicate]
    exact Nat.lt_of_lt_of_le (List.mem_range.mp hi) (Nat.le_of_lt hrem)

theorem distributeEven_getD (total n : Nat) (hn : n ≠ 0) (j : Nat) (hj : j < n) :
    (distributeEven total n).getD j 0 =
      total / n + if j < total % n then 1 else 0 := by
  have hpos : 0 < n := Nat.pos_of_ne_zero hn
  have hmod : total - total / n * n = total % n := by
    have h1 := Nat.div_add_mod total n
    have h2 : n * (total / n) = total / n * n := Nat.mul_comm _ _
    omega
  rw [distributeEven, hmod, foldl_bumpAt_getD _ _ _ (by rw [List.length_replicate]; exact hj)]
  rw [List.getD_eq_getElem _ _ (by rw [List.length_replicate]; exact hj)]
  simp [count_range j (total % n)]

theorem distributeProportional_order_sound (total : Nat) (weights : List Nat) :
    ∀ i ∈ ((sortResiduals (((weights.map (fun w => total * w)).map
        (fun raw => raw % weights.sum)).enum.map (fun p => (p.2, p.1)))).map
        (fun p => p.2)),
      i < weights.length := by
  intro i hi
  obtain ⟨p, hp, hpi⟩ := List.mem_map.mp hi
  have hp' := (sortResiduals_perm _).mem_iff.mp hp
  obtain ⟨q, hq, hqp⟩ := List.mem_map.mp hp'
  have := List.fst_lt_of_mem_enum hq
  simp only [List.length_map] at this
  subst hpi
  rw [← hqp]
  exact this

theorem distributeProportional_length (total : Nat) (weights : List Nat) :
    (distributeProportional total weights).length = weights.length := by
  simp only [distributeProportional]
  split
  · rw [bumpLast_length, handOut_length, List.length_map, List.length_map]
  · rw [handOut_length, List.length_map, List.length_map]

theorem distributeProportional_sum (total : Nat) (weights : List Nat)
    (hw : weights ≠ []) (hs : weights.sum ≠ 0) :
    (distributeProportional total weights).sum = total := by
  have hlen : 0 < weights.length := List.length_pos.mpr hw
  simp only [distributeProportional]
  set shares := (weights.map (fun w => total * w)).map (fun raw => raw / weights.sum)
    with hshares
  set order := (sortResiduals (((weights.map (fun w => total * w)).map
      (fun raw => raw % weights.sum)).enum.map (fun p => (p.2, p.1)))).map
      (fun p => p.2) with horder
  have hshares_len : shares.length = weights.length := by
    rw [hshares, List.length_map, List.length_map]
  have horder_len : order.length = weights.length := by
    rw [horder, List.length_map, (sortResiduals_perm _).length_eq, List.length_map,
      List.enum_length, List.length_map, List.length_map]
  have horder_ne : order ≠ [] := by
    apply List.length_pos.mp
    rw [horder_len]
    exact hlen
  have hmem : ∀ i ∈ order, i < weights.length := by
    rw [horder]
    exact distributeProportional_order_sound total weights
  have hspec := handOut_spec order horder_ne weights.length hmem
    (total - shares.sum) shares 0 hshares_len
  rw [if_neg (by rw [hspec.2]; omega)]
  rw [hspec.1, Nat.add_sub_cancel']
  rw [hshares]
  exact baseShares_sum_le total weights hs

theorem distributeLengths_length (total : Nat) (weights : List Nat) :
    (distributeLengths total weights).length = weights.length := by
  by_cases hw : weights = []
  · simp [distributeLengths, hw]
  · by_cases ht : total = 0
    · simp [distributeLengths, hw, ht]
    · by_cases hs : weights.sum = 0
      · simp [distributeLengths, hw, ht, hs, distributeEven_length]
      · simp [distributeLengths, hw, ht, hs, distributeProportional_length]

theorem distributeLengths_sum (total : Nat) (weights : List Nat) (hw : weights ≠ []) :
    (distributeLengths total weights).sum = total := by
  have hn : weights.length ≠ 0 := by
    intro h
    exact hw (List.eq_nil_of_length_eq_zero h)
  by_cases ht : total = 0
  · subst ht
    simp [distributeLengths, hw]
  · by_cases hs : weights.sum = 0
    · simp [distributeLengths, hw, ht, hs, distributeEven_sum total weights.length hn]
    · simp [distributeLengths, hw, ht, hs, distributeProportional_sum total weights hw hs]

theorem residualRel_iff (a b : Nat × Nat) :
    residualRel a b ↔ (b.1 < a.1 ∨ (a.1 = b.1 ∧ a.2 ≤ b.2)) := by
  simp [residualRel, residualLE]

theorem residualRel_total (a b : Nat × Nat) (h : ¬ residualRel a b) : residualRel b a := by
  rw [residualRel_iff] at h ⊢
  omega

theorem residualRel_trans (a b c : Nat × Nat) (hab : residualRel a b)
    (hbc : residualRel b c) : residualRel a c := by
  rw [residualRel_iff] at hab hbc ⊢
  omega

theorem insertResidual_pairwise (x : Nat × Nat) (l : List (Nat × Nat))
    (hl : l.Pairwise residualRel) :
    (insertResidual x l).Pairwise residualRel := by
  induction l with
  | nil =>
    simp only [insertResidual]
    exact List.pairwise_singleton _ _
  | cons y ys ih =>
    rw [List.pairwise_cons] at hl
    by_cases hxy : residualLE x y
    · simp only [insertResidual, if_pos hxy]
      rw [List.pairwise_cons]
      refine ⟨?_, List.pairwise_cons.mpr hl⟩
      intro z hz
      rcases List.mem_cons.mp hz with rfl | hzys
      · exact hxy
      · exact residualRel_trans x y z hxy (hl.1 z hzys)
    · simp only [insertResidual, if_neg hxy]
      rw [List.pairwise_cons]
      refine ⟨?_, ih hl.2⟩
      intro z hz
      have hz' := (insertResidual_perm x ys).mem_iff.mp hz
      rcases List.mem_cons.mp hz' with hzx | hzys
      · rw [hzx]
        exact residualRel_total x y hxy
      · exact hl.1 z hzys

theorem sortResiduals_pairwise (l : List (Nat × Nat)) :
    (sortResiduals l).Pairwise residualRel := by
  induction l with
  | nil => exact List.Pairwise.nil
  | cons x xs ih => exact insertResidual_pairwise x (sortResiduals xs) ih

theorem sum_div_add_mod (W : Nat) (l : List Nat) :
    W * (l.map (fun a => a / W)).sum + (l.map (fun a => a % W)).sum = l.sum := by
  induction l with
  | nil => simp
  | cons a t ih =>
    simp only [List.map_cons, List.sum_cons, Nat.mul_add]
    have := Nat.div_add_mod a W
    omega

theorem distribute_remainder_lt (total : Nat) (weights : List Nat)
    (hw : weights ≠ []) (hs : weights.sum ≠ 0) :
    total - ((weights.map (fun w => total * w)).map
      (fun raw => raw / weights.sum)).sum < weights.length := by
  have hWpos : 0 < weights.sum := Nat.pos_of_ne_zero hs
  have hn : 0 < weights.length := List.length_pos.mpr hw
  have hraws_sum : (weights.map (fun w => total * w)).sum = total * weights.sum :=
    sum_map_mul total weights
  have hsplit := sum_div_add_mod weights.sum (weights.map (fun w => total * w))
  rw [hraws_sum] at hsplit
  have hmodbound : ((weights.map (fun w => total * w)).map
      (fun a => a % weights.sum)).sum ≤ weights.length * (weights.sum - 1) := by
    have hmap : ∀ x ∈ (weights.map (fun w => total * w)).map (fun a => a % weights.sum),
        x ≤ weights.sum - 1 := by
      intro x hx
      obtain ⟨a, -, rfl⟩ := List.mem_map.mp hx
      have := Nat.mod_lt a hWpos
      omega
    have h := List.sum_le_card_nsmul _ _ hmap
    have hlen : ((weights.map (fun w => total * w)).map
        (fun a => a % weights.sum)).length = weights.length := by
      rw [List.length_map, List.length_map]
    rw [hlen] at h
    simpa [smul_eq_mul] using h
  have hble := baseShares_sum_le total weights hs
  by_contra hcon
  push_neg at hcon
  have hgetot : ((weights.map (fun w => total * w)).map
      (fun raw => raw / weights.sum)).sum + weights.length ≤ total := by omega
  have h1 : weights.sum * (((weights.map (fun w => total * w)).map
      (fun raw => raw / weights.sum)).sum + weights.length) ≤ weights.sum * total :=
    Nat.mul_le_mul_left weights.sum hgetot
  have h2 : weights.sum * (((weights.map (fun w => total * w)).map
      (fun raw => raw / weights.sum)).sum + weights.length) =
      weights.sum * ((weights.map (fun w => total * w)).map
        (fun raw => raw / weights.sum)).sum + weights.sum * weights.length :=
    Nat.mul_add _ _ _
  have h3 : weights.length * (weights.sum - 1) < weights.length * weights.sum :=
    Nat.mul_lt_mul_of_pos_left (by omega) hn
  have h4 : weights.sum * weights.length = weights.length * weights.sum :=
    Nat.mul_comm _ _
  have h5 : total * weights.sum = weights.sum * total := Nat.mul_comm _ _
  omega

theorem handOut_snd (order : List Nat) (hne : order ≠ []) :
    ∀ (r : Nat) (shares : List Nat) (cursor : Nat),
      (handOut order shares cursor r).2 = 0 := by
  intro r
  induction r with
  | zero => intro shares cursor; rfl
  | succ r' ih =>
    intro shares cursor
    have hemp : order.isEmpty = false := by
      cases order with
      | nil => exact absurd rfl hne
      | cons o t => rfl
    simp only [handOut, hemp, Bool.false_eq_true, if_false, if_neg]
    exact ih _ _

theorem handOut_getD_count (order : List Nat) :
    ∀ (R cursor : Nat) (shares : List Nat), cursor + R ≤ order.length →
      ∀ j, j < shares.length →
      (handOut order shares cursor R).1.getD j 0 =
        shares.getD j 0 + ((order.drop cursor).take R).count j := by
  intro R
  induction R with
  | zero =>
    intro cursor shares _ j _
    simp [handOut]
  | succ R' ih =>
    intro cursor shares hle j hj
    have hcur : cursor < order.length := by omega
    have hemp : order.isEmpty = false := by
      cases order with
      | nil => simp at hcur
      | cons o t => rfl
    have hdropc : order.drop cursor = order[cursor] :: order.drop (cursor + 1) :=
      List.drop_eq_getElem_cons hcur
    have hj' : j < (bumpAt shares (order.getD cursor 0)).length := by
      rw [bumpAt_length]
      exact hj
    simp only [handOut, hemp, Bool.false_eq_true, if_false, if_neg]
    by_cases hwrap : cursor + 1 < order.length
    · have hmod : (cursor + 1) % order.length = cursor + 1 := Nat.mod_eq_of_lt hwrap
      rw [hmod, ih (cursor + 1) _ (by omega) j hj',
        bumpAt_getD shares _ j hj, hdropc, List.take_succ_cons, List.count_cons,
        List.getD_eq_getElem order 0 hcur]
      by_cases hx : order[cursor] = j
      · rw [if_pos hx]
        have hbeq : (order[cursor] == j) = true := by simp [hx]
        rw [hbeq]
        simp only [eq_self_iff_true, if_true]
        omega
      · rw [if_neg hx]
        have hbeq : (order[cursor] == j) = false := by simp [hx]
        rw [hbeq]
        simp only [Bool.false_eq_true, if_false]
        omega
    · have hlen_eq : cursor + 1 = order.length := by omega
      have hR0 : R' = 0 := by omega
      subst hR0
      have hmod : (cursor + 1) % order.length = 0 := by
        rw [hlen_eq]
        exact Nat.mod_self _
      rw [hmod]
      simp only [handOut]
      rw [bumpAt_getD shares _ j hj, hdropc, List.take_succ_cons, List.take_zero,
        List.count_cons, List.count_nil, List.getD_eq_getElem order 0 hcur]
      by_cases hx : order[cursor] = j
      · rw [if_pos hx]
        have hbeq : (order[cursor] == j) = true := by simp [hx]
        rw [hbeq]
        simp only [eq_self_iff_true, if_true]
      · rw [if_neg hx]
        have hbeq : (order[cursor] == j) = false := by simp [hx]
        rw [hbeq]
        simp only [Bool.false_eq_true, if_false]

theorem baseShares_getD (total : Nat) (weights : List Nat) (j : Nat)
    (hj : j < weights.length) :
    ((weights.map (fun w => total * w)).map
      (fun raw => raw / weights.sum)).getD j 0 = baseShare total weights j := by
  have hj1 : j < ((weights.map (fun w => total * w)).map
      (fun raw => raw / weights.sum)).length := by simpa using hj
  rw [List.getD_eq_getElem _ _ hj1, List.getElem_map, List.getElem_map, baseShare,
    List.getD_eq_getElem weights 0 hj]

theorem resids_getD (total : Nat) (weights : List Nat) (j : Nat)
    (hj : j < weights.length) :
    ((weights.map (fun w => total * w)).map
      (fun raw => raw % weights.sum)).getD j 0 = fracResidual total weights j := by
  have hj1 : j < ((weights.map (fun w => total * w)).map
      (fun raw => raw % weights.sum)).length := by simpa using hj
  rw [List.getD_eq_getElem _ _ hj1, List.getElem_map, List.getElem_map, fracResidual,
    List.getD_eq_getElem weights 0 hj]

theorem residuals_mem_form (l : List Nat) (q : Nat × Nat)
    (hq : q ∈ l.enum.map (fun p => (p.2, p.1))) :
    q.2 < l.length ∧ q.1 = l.getD q.2 0 := by
  obtain ⟨p, hp, hpq⟩ := List.mem_map.mp hq
  have h1 := List.mem_enum_iff_getElem?.mp hp
  have h2 : p.1 < l.length := by
    by_contra hc
    rw [List.getElem?_eq_none (by omega)] at h1
    exact absurd h1 (by simp)
  have h3 : l[p.1] = p.2 := by
    rw [List.getElem?_eq_getElem h2] at h1
    exact (Option.some.injEq _ _).mp h1
  subst hpq
  exact ⟨h2, by rw [List.getD_eq_getElem l 0 h2, h3]⟩

theorem residuals_mem_of_lt (l : List Nat) (i : Nat) (hi : i < l.length) :
    (l.getD i 0, i) ∈ l.enum.map (fun p => (p.2, p.1)) := by
  refine List.mem_map.mpr ⟨(i, l[i]), ?_, ?_⟩
  · exact List.mem_enum_iff_getElem?.mpr (List.getElem?_eq_getElem hi)
  · show (l[i], i) = (l.getD i 0, i)
    rw [List.getD_eq_getElem l 0 hi]

theorem order_perm_range (total : Nat) (weights : List Nat) :
    List.Perm ((sortResiduals (((weights.map (fun w => total * w)).map
        (fun raw => raw % weights.sum)).enum.map (fun p => (p.2, p.1)))).map
        (fun p => p.2))
      (List.range weights.length) := by
  have h1 := (sortResiduals_perm (((weights.map (fun w => total * w)).map
      (fun raw => raw % weights.sum)).enum.map (fun p => (p.2, p.1)))).map
      (fun p : Nat × Nat => p.2)
  have h2 : ((((weights.map (fun w => total * w)).map
      (fun raw => raw % weights.sum)).enum.map
        (fun p => (p.2, p.1))).map (fun p : Nat × Nat => p.2))
      = List.range weights.length := by
    rw [List.map_map]
    have hcomp : ((fun p : Nat × Nat => p.2) ∘ (fun p : Nat × Nat => (p.2, p.1)))
        = Prod.fst := rfl
    rw [hcomp, List.enum_map_fst, List.length_map, List.length_map]
  rw [h2] at h1
  exact h1

theorem distributeProportional_getD_char (total : Nat) (weights : List Nat)
    (hw : weights ≠ []) (hs : weights.sum ≠ 0) (j : Nat) (hj : j < weights.length) :
    (distributeProportional total weights).getD j 0 =
      baseShare total weights j +
        (((sortResiduals (((weights.map (fun w => total * w)).map
            (fun raw => raw % weights.sum)).enum.map (fun p => (p.2, p.1)))).map
            (fun p => p.2)).take
          (total - ((weights.map (fun w => total * w)).map
            (fun raw => raw / weights.sum)).sum)).count j := by
  have hlen : 0 < weights.length := List.length_pos.mpr hw
  simp only [distributeProportional]
  set shares := (weights.map (fun w => total * w)).map (fun raw => raw / weights.sum)
    with hshares
  set order := (sortResiduals (((weights.map (fun w => total * w)).map
      (fun raw => raw % weights.sum)).enum.map (fun p => (p.2, p.1)))).map
      (fun p => p.2) with horder
  have hshares_len : shares.length = weights.length := by
    rw [hshares, List.length_map, List.length_map]
  have horder_len : order.length = weights.length :=
    (order_perm_range total weights).length_eq.trans (List.length_range _)
  have horder_ne : order ≠ [] := by
    apply List.length_pos.mp
    rw [horder_len]
    exact hlen
  rw [if_neg (by rw [handOut_snd order horder_ne]; omega)]
  have hR : total - shares.sum < weights.length := by
    rw [hshares]
    exact distribute_remainder_lt total weights hw hs
  have hcount := handOut_getD_count order (total - shares.sum) 0 shares
    (by omega) j (by rw [hshares_len]; exact hj)
  rw [hcount, List.drop_zero, baseShares_getD total weights j hj]

theorem order_take_mem_of_higherPriority (total : Nat) (weights : List Nat)
    (R j k : Nat) (hj : j < weights.length) (hk : k < weights.length)
    (hjin : j ∈ (((sortResiduals (((weights.map (fun w => total * w)).map
        (fun raw => raw % weights.sum)).enum.map (fun p => (p.2, p.1)))).map
        (fun p => p.2)).take R))
    (hpr : higherPriority total weights k j) :
    k ∈ (((sortResiduals (((weights.map (fun w => total * w)).map
        (fun raw => raw % weights.sum)).enum.map (fun p => (p.2, p.1)))).map
        (fun p => p.2)).take R) := by
  set resids := ((weights.map (fun w => total * w)).map
    (fun raw => raw % weights.sum)) with hresids
  set residuals := resids.enum.map (fun p => (p.2, p.1)) with hresiduals
  set S := sortResiduals residuals with hS
  have hresids_len : resids.length = weights.length := by
    rw [hresids, List.length_map, List.length_map]
  rw [← List.map_take] at hjin ⊢
  obtain ⟨qj, hqjmem, hqj2⟩ := List.mem_map.mp hjin
  have hqjS : qj ∈ S := List.mem_of_mem_take hqjmem
  have hqjres : qj ∈ residuals := (sortResiduals_perm residuals).mem_iff.mp hqjS
  have hqjform := residuals_mem_form resids qj hqjres
  have hqj1 : qj.1 = fracResidual total weights j := by
    rw [hqjform.2, hqj2, resids_getD total weights j hj]
  have hqkres : (resids.getD k 0, k) ∈ residuals :=
    residuals_mem_of_lt resids k (by rw [hresids_len]; exact hk)
  have hqkS : (resids.getD k 0, k) ∈ S :=
    (sortResiduals_perm residuals).mem_iff.mpr hqkres
  have hqk1 : resids.getD k 0 = fracResidual total weights k :=
    resids_getD total weights k hk
  have hpw := sortResiduals_pairwise residuals
  rw [← hS] at hpw
  have hsplitS : S = S.take R ++ S.drop R := (List.take_append_drop R S).symm
  rw [hsplitS] at hpw
  have hcross := (List.pairwise_append.mp hpw).2.2
  have hqk_take : (resids.getD k 0, k) ∈ S.take R := by
    rcases List.mem_append.mp (by rw [← hsplitS]; exact hqkS) with hin | hin
    · exact hin
    · exfalso
      have hrel := hcross qj hqjmem (resids.getD k 0, k) hin
      rw [residualRel_iff] at hrel
      simp only [hqj1, hqj2, hqk1] at hrel
      rw [higherPriority] at hpr
      omega
  exact List.mem_map.mpr ⟨(resids.getD k 0, k), hqk_take, rfl⟩

/-! Section: Helper lemmas about the cross-run replace engine -/

theorem pyContains_nil (find : List Char) : pyContains find [] = false := rfl

theorem replaceWithinRun_zero (find repl r : List Char)
    (h : (replaceWithinRun find repl r).2 = 0) :
    (replaceWithinRun find repl r).1 = r := by
  by_cases hg : r = [] ∨ ¬ pyContains find r
  · simp only [replaceWithinRun, if_pos hg]
  · exfalso
    simp only [replaceWithinRun, if_neg hg] at h
    push_neg at hg
    have : 0 < pyCount find r := by
      simpa [pyContains] using hg.2
    omega

theorem replaceWithinRuns_length (find repl : List Char) (runs : List (List Char)) :
    (replaceWithinRuns find repl runs).1.length = runs.length := by
  induction runs with
  | nil => rfl
  | cons r rest ih => simp [replaceWithinRuns, ih]

theorem replaceWithinRuns_zero (find repl : List Char) (runs : List (List Char))
    (h : (replaceWithinRuns find repl runs).2 = 0) :
    (replaceWithinRuns find repl runs).1 = runs := by
  induction runs with
  | nil => rfl
  | cons r rest ih =>
    simp only [replaceWithinRuns] at h ⊢
    rcases Nat.add_eq_zero.mp h with ⟨h1, h2⟩
    rw [replaceWithinRun_zero find repl r h1, ih h2]

theorem sliceAlong_length (s : List Char) (sizes : List Nat) :
    (sliceAlong s sizes).length = sizes.length := by
  induction sizes generalizing s with
  | nil => rfl
  | cons n rest ih => simp [sliceAlong, ih]

theorem sliceAlong_flatten (s : List Char) (sizes : List Nat) :
    (sliceAlong s sizes).flatten = s.take sizes.sum := by
  induction sizes generalizing s with
  | nil => simp [sliceAlong]
  | cons n rest ih =>
    simp only [sliceAlong, List.flatten_cons, ih (s.drop n), List.sum_cons]
    exact (List.take_add s n rest.sum).symm

theorem replaceAcrossRuns_length (runs : List (List Char)) (find repl : List Char) :
    (replaceAcrossRuns runs find repl).1.length = runs.length := by
  by_cases h1 : runs = [] ∨ find = []
  · simp [replaceAcrossRuns, h1]
  · by_cases h2 : pyContains find runs.flatten
    · simp [replaceAcrossRuns, h1, h2, sliceAlong_length, distributeLengths_length]
    · simp [replaceAcrossRuns, h1, h2]

theorem replaceAcrossRuns_flatten (runs : List (List Char)) (find repl : List Char)
    (h : (replaceAcrossRuns runs find repl).2 ≠ 0) :
    (replaceAcrossRuns runs find repl).1.flatten =
      pyReplace find repl runs.flatten := by
  by_cases h1 : runs = [] ∨ find = []
  · exact absurd (by simp [replaceAcrossRuns, h1]) h
  · by_cases h2 : pyContains find runs.flatten
    · have hruns : runs ≠ [] := fun hc => h1 (Or.inl hc)
      have hweights : runs.map List.length ≠ [] := by
        simpa using hruns
      simp only [replaceAcrossRuns, if_neg h1, h2, not_true_eq_false, if_neg,
        Bool.not_true, if_false]
      rw [sliceAlong_flatten, distributeLengths_sum _ _ hweights,
        List.take_length]
    · exact absurd (by simp [replaceAcrossRuns, h1, h2]) h

theorem replaceInRuns_length (runs : List (List Char)) (find repl : List Char) :
    (replaceInRuns runs find repl).1.length = runs.length := by
  by_cases h0 : runs = []
  · simp [replaceInRuns, h0]
  · by_cases h1 : pyContains find (replaceWithinRuns find repl runs).1.flatten
    · simp [replaceInRuns, h0, h1, replaceAcrossRuns_length, replaceWithinRuns_length]
    · simp [replaceInRuns, h0, h1, replaceWithinRuns_length]

theorem replaceInRuns_count_decomp (runs : List (List Char)) (find repl : List Char) :
    (replaceInRuns runs find repl).2 =
      (replaceWithinRuns find repl runs).2 +
        (if pyContains find (replaceWithinRuns find repl runs).1.flatten then
          (replaceAcrossRuns (replaceWithinRuns find repl runs).1 find repl).2
        else 0) := by
  by_cases h0 : runs = []
  · subst h0
    simp [replaceInRuns, replaceWithinRuns, pyContains_nil]
  · by_cases h1 : pyContains find (replaceWithinRuns find repl runs).1.flatten
    · simp [replaceInRuns, h0, h1]
    · simp [replaceInRuns, h0, h1]

theorem replaceInRuns_zero (runs : List (List Char)) (find repl : List Char)
    (h : (replaceInRuns runs find repl).2 = 0) :
    (replaceInRuns runs find repl).1 = runs ∧
      pyContains find runs.flatten = false := by
  by_cases h0 : runs = []
  · subst h0
    exact ⟨by simp [replaceInRuns], pyContains_nil find⟩
  · by_cases h1 : pyContains find (replaceWithinRuns find repl runs).1.flatten
    · exfalso
      have hdec := replaceInRuns_count_decomp runs find repl
      rw [h, if_pos h1] at hdec
      rcases Nat.add_eq_zero.mp hdec.symm with ⟨hw, hacross⟩
      have hfind : find ≠ [] := by
        intro hf
        subst hf
        have : (0 : Nat) < pyCount [] (replaceWithinRuns [] repl runs).1.flatten := by
          simpa [pyContains] using h1
        have hz : ∀ s : List Char, pyCount ([] : List Char) s = 0 := by
          intro s
          induction s with
          | nil => rfl
          | cons c cs ihs =>
            rw [pyCount_cons_miss _ _ _ (by simp)]
            exact ihs
        rw [hz] at this
        omega
      have hne : (replaceWithinRuns find repl runs).1 ≠ [] := by
        intro hc
        have := replaceWithinRuns_length find repl runs
        rw [hc] at this
        exact h0 (List.eq_nil_of_length_eq_zero this.symm)
      have hguard : ¬((replaceWithinRuns find repl runs).1 = [] ∨ find = []) := by
        rintro (hc | hc)
        · exact hne hc
        · exact hfind hc
      have hcnt : (replaceAcrossRuns (replaceWithinRuns find repl runs).1 find repl).2
          = pyCount find (replaceWithinRuns find repl runs).1.flatten := by
        simp [replaceAcrossRuns, hguard, h1]
      rw [hcnt] at hacross
      have : 0 < pyCount find (replaceWithinRuns find repl runs).1.flatten := by
        simpa [pyContains] using h1
      omega
    · have hdec := replaceInRuns_count_decomp runs find repl
      rw [h, if_neg h1] at hdec
      have hw : (replaceWithinRuns find repl runs).2 = 0 := by omega
      have hfix := replaceWithinRuns_zero find repl runs hw
      have hcont' : pyContains find runs.flatten = false := by
        rw [← hfix]
        simpa using h1
      constructor
      · simp [replaceInRuns, h0, hfix, hcont']
      · exact hcont'

/-! Section: Helper lemmas about the search engine -/

theorem scanParagraph_invariant (needle hay : List Char) (idx maxR : Nat) :
    ∀ fuel cursor acc, acc.length < maxR →
      ((scanParagraph needle hay idx maxR fuel cursor acc).2 = true →
        (scanParagraph needle hay idx maxR fuel cursor acc).1.length = maxR) ∧
      ((scanParagraph needle hay idx maxR fuel cursor acc).2 = false →
        (scanParagraph needle hay idx maxR fuel cursor acc).1.length < maxR) := by
  intro fuel
  induction fuel with
  | zero =>
    intro cursor acc hacc
    exact ⟨fun h => by simp [scanParagraph] at h, fun _ => hacc⟩
  | succ f ih =>
    intro cursor acc hacc
    simp only [scanParagraph]
    cases hfind : pyFind needle hay cursor with
    | none => exact ⟨fun h => by simp at h, fun _ => hacc⟩
    | some pos =>
      dsimp only
      simp only [List.length_append, List.length_cons, List.length_nil, Nat.zero_add]
      by_cases hcap : maxR ≤ acc.length + 1
      · constructor
        · intro _
          rw [if_pos hcap]
          simp only [List.length_append, List.length_cons, List.length_nil]
          omega
        · intro hfalse
          rw [if_pos hcap] at hfalse
          simp at hfalse
      · have hacc' : (acc ++ [(⟨idx, pos, ((hay.drop (pos - 20)).take
            (min hay.length (pos + needle.length + 20) - (pos - 20)))⟩ : FindMatch)]).length
              < maxR := by
          simp only [List.length_append, List.length_cons, List.length_nil]
          omega
        have hstep := ih (pos + max 1 needle.length) _ hacc'
        constructor
        · intro htrue
          rw [if_neg hcap] at htrue ⊢
          exact hstep.1 htrue
        · intro hfalse
          rw [if_neg hcap] at hfalse ⊢
          exact hstep.2 hfalse

theorem findLoop_cap (needle : List Char) (maxR : Nat) :
    ∀ doc idx acc, acc.length < maxR →
      (findLoop needle maxR doc idx acc).length ≤ maxR := by
  intro doc
  induction doc with
  | nil =>
    intro idx acc hacc
    exact Nat.le_of_lt hacc
  | cons hay rest ih =>
    intro idx acc hacc
    simp only [findLoop]
    have hinv := scanParagraph_invariant needle hay idx maxR (hay.length + 1) 0 acc hacc
    cases hstop : (scanParagraph needle hay idx maxR (hay.length + 1) 0 acc).2 with
    | true =>
      simp only [eq_self_iff_true, if_true]
      exact Nat.le_of_eq (hinv.1 hstop)
    | false =>
      simp only [Bool.false_eq_true, if_false]
      exact ih (idx + 1) _ (hinv.2 hstop)

theorem findLoop_append (needle : List Char) (maxR : Nat) :
    ∀ doc idx acc extra, acc.length < maxR →
      (findLoop needle maxR doc idx acc).length = maxR →
      findLoop needle maxR (doc ++ extra) idx acc = findLoop needle maxR doc idx acc := by
  intro doc
  induction doc with
  | nil =>
    intro idx acc extra hacc hcap
    exact absurd hcap (by simp [findLoop]; omega)
  | cons hay rest ih =>
    intro idx acc extra hacc hcap
    have hinv := scanParagraph_invariant needle hay idx maxR (hay.length + 1) 0 acc hacc
    simp only [List.cons_append, findLoop] at hcap ⊢
    cases hstop : (scanParagraph needle hay idx maxR (hay.length + 1) 0 acc).2 with
    | true => simp only [eq_self_iff_true, if_true]
    | false =>
      rw [hstop] at hcap
      simp only [Bool.false_eq_true, if_false] at hcap ⊢
      exact ih (idx + 1) _ extra (hinv.2 hstop) hcap

/-! Section: Further helper lemmas -/

theorem count_flatten_eq (ls : List (List Nat)) (a : Nat) :
    ls.flatten.count a = (ls.map (fun l => l.count a)).sum := by
  induction ls with
  | nil => simp
  | cons x xs ih => simp [List.count_append, ih]

theorem getD_set_nat (s : List Nat) (i j v : Nat) (hj : j < s.length) :
    (s.set i v).getD j 0 = if i = j then v else s.getD j 0 := by
  have hj' : j < (s.set i v).length := by simpa using hj
  rw [List.getD_eq_getElem _ _ hj', List.getD_eq_getElem _ _ hj]
  exact List.getElem_set hj'

theorem bumpAt_getD_le (s : List Nat) (i j : Nat) :
    s.getD j 0 ≤ (bumpAt s i).getD j 0 := by
  by_cases hj : j < s.length
  · rw [bumpAt_getD s i j hj]
    exact Nat.le_add_right _ _
  · rw [List.getD_eq_default _ _ (Nat.le_of_not_lt hj),
      List.getD_eq_default _ _ (by rw [bumpAt_length]; exact Nat.le_of_not_lt hj)]

theorem bumpLast_getD_le (s : List Nat) (r j : Nat) :
    s.getD j 0 ≤ (bumpLast s r).getD j 0 := by
  by_cases hj : j < s.length
  · rw [bumpLast, getD_set_nat _ _ _ _ hj]
    by_cases hij : s.length - 1 = j
    · rw [if_pos hij, hij]
      exact Nat.le_add_right _ _
    · rw [if_neg hij]
  · rw [List.getD_eq_default _ _ (Nat.le_of_not_lt hj),
      List.getD_eq_default _ _ (by rw [bumpLast_length]; exact Nat.le_of_not_lt hj)]

theorem handOut_getD_le (order : List Nat) :
    ∀ r s cursor j, s.getD j 0 ≤ (handOut order s cursor r).1.getD j 0 := by
  intro r
  induction r with
  | zero => intro s cursor j; exact Nat.le_refl _
  | succ r' ih =>
    intro s cursor j
    by_cases h : order.isEmpty
    · simp [handOut, h]
    · simp only [handOut, h, Bool.false_eq_true, if_false, if_neg]
      exact Nat.le_trans (bumpAt_getD_le s _ j) (ih _ _ j)

theorem distributeProportional_base_le (total : Nat) (weights : List Nat)
    (j : Nat) (hj : j < weights.length) :
    total * weights.getD j 0 / weights.sum ≤
      (distributeProportional total weights).getD j 0 := by
  simp only [distributeProportional]
  set shares := (weights.map (fun w => total * w)).map (fun raw => raw / weights.sum)
    with hshares
  have hbase : shares.getD j 0 = total * weights.getD j 0 / weights.sum := by
    have hj1 : j < (weights.map (fun w => total * w)).length := by simpa using hj
    have hj2 : j < shares.length := by rw [hshares]; simpa using hj
    rw [hshares, List.getD_eq_getElem _ _ hj2, List.getElem_map, List.getElem_map,
      List.getD_eq_getElem _ _ hj]
  rw [← hbase]
  set order := (sortResiduals (((weights.map (fun w => total * w)).map
      (fun raw => raw % weights.sum)).enum.map (fun p => (p.2, p.1)))).map
      (fun p => p.2)
  split
  · exact Nat.le_trans (handOut_getD_le order _ _ 0 j) (bumpLast_getD_le _ _ j)
  · exact handOut_getD_le order _ _ 0 j

theorem batchReplaceInDoc_error (doc : List (List (List Char)))
    (reps : List (List Char × List Char)) (h : ∃ p ∈ reps, p.1 = []) :
    (batchReplaceInDoc doc reps).2 = none := by
  induction reps generalizing doc with
  | nil => simp at h
  | cons p rest ih =>
    obtain ⟨q, hq, hq1⟩ := h
    cases p with
    | mk f r =>
      by_cases hf : f = []
      · subst hf
        rfl
      · rcases List.mem_cons.mp hq with hqp | hmem
        · exact absurd (by rw [hqp] at hq1; exact hq1) hf
        · simp only [batchReplaceInDoc, if_neg hf]
          have htail := ih (replaceInDoc f r doc).1 ⟨q, hmem, hq1⟩
          rw [htail]

theorem replaceAcrossRuns_count (runs : List (List Char)) (find repl : List Char)
    (hru : runs ≠ []) (hf : find ≠ [])
    (hc : pyContains find runs.flatten = true) :
    (replaceAcrossRuns runs find repl).2 = pyCount find runs.flatten := by
  have hguard : ¬(runs = [] ∨ find = []) := by
    rintro (hx | hx)
    exacts [hru hx, hf hx]
  simp [replaceAcrossRuns, hguard, hc]

/-! Section: The claims -/

/-- Claim C1 — `_replace_in_runs` returns the phase-1 (within-run) count plus
the phase-2 (cross-run) count, where phase 2 triggers on — and counts
exactly — the occurrences of `find` still present in the concatenation of
the run texts after phase 1; in particular when nothing remains after
phase 1 the total is the phase-1 count alone, so an occurrence lying fully
inside one run is counted once.  On the spec's example: runs
`["20", "26학년도 운영"]`, replacing `"2026"` with `"2027"` returns 1, the
concatenated text afterwards starts with `"2027"`, and a subsequent search
for `"2026"` yields zero matches. -/
theorem C1_replace_in_runs_two_phase_count :
    (∀ runs find repl, find ≠ [] →
      (replaceInRuns runs find repl).2 =
        (replaceWithinRuns find repl runs).2 +
          (if pyContains find (replaceWithinRuns find repl runs).1.flatten then
            pyCount find (replaceWithinRuns find repl runs).1.flatten
          else 0)) ∧
    (∀ runs find repl, find ≠ [] →
      pyContains find (replaceWithinRuns find repl runs).1.flatten = false →
      (replaceInRuns runs find repl).2 = (replaceWithinRuns find repl runs).2) ∧
    (replaceInRuns ["20".data, "26학년도 운영".data] "2026".data "2027".data).2 = 1 ∧
    "2027".data.isPrefixOf
      (replaceInRuns ["20".data, "26학년도 운영".data] "2026".data
        "2027".data).1.flatten = true ∧
    findInDoc [(replaceInRuns ["20".data, "26학년도 운영".data] "2026".data
      "2027".data).1.flatten] "2026".data 50 = some ([], 0) := by
  refine ⟨?_, ?_, by decide, by decide, by decide⟩
  · intro runs find repl hf
    rw [replaceInRuns_count_decomp]
    by_cases hc : pyContains find (replaceWithinRuns find repl runs).1.flatten
    · rw [if_pos hc, if_pos hc]
      congr 1
      refine replaceAcrossRuns_count _ _ _ ?_ hf hc
      intro hnil
      rw [hnil] at hc
      simp [pyContains_nil] at hc
    · rw [if_neg hc, if_neg hc]
  · intro runs find repl hf hcfalse
    rw [replaceInRuns_count_decomp, hcfalse]
    simp

/-- Witness for C1: the general two-phase decomposition instantiated at
runs `[\x22ab\x22]`, find `\x22ab\x22`, replace `\x22x\x22`. -/
theorem C1_replace_in_runs_two_phase_count_witness :
    (replaceInRuns [['a', 'b']] ['a', 'b'] ['x']).2 =
      (replaceWithinRuns ['a', 'b'] ['x'] [['a', 'b']]).2 +
        (if pyContains ['a', 'b']
            (replaceWithinRuns ['a', 'b'] ['x'] [['a', 'b']]).1.flatten then
          pyCount ['a', 'b']
            (replaceWithinRuns ['a', 'b'] ['x'] [['a', 'b']]).1.flatten
        else 0) :=
  C1_replace_in_runs_two_phase_count.1 [['a', 'b']] ['a', 'b'] ['x'] (by decide)

/-- Claim C2 — whenever `_replace_across_runs` reports a non-zero count, the
concatenation of the run texts after the call equals the pre-call
concatenation with every occurrence of `find` replaced by `replace`; the
redistribution adds, drops and reorders nothing. -/
theorem C2_cross_run_replace_preserves_concatenation
    (runs : List (List Char)) (find repl : List Char) (_hf : find ≠ [])
    (h : (replaceAcrossRuns runs find repl).2 ≠ 0) :
    (replaceAcrossRuns runs find repl).1.flatten =
      pyReplace find repl runs.flatten := by
  exact replaceAcrossRuns_flatten runs find repl h

/-- Witness for C2: the spec's split-run example, where the single
occurrence straddles the run boundary. -/
theorem C2_cross_run_replace_preserves_concatenation_witness :
    (replaceAcrossRuns ["20".data, "26학년도 운영".data] "2026".data
        "2027".data).1.flatten =
      pyReplace "2026".data "2027".data
        ["20".data, "26학년도 운영".data].flatten :=
  C2_cross_run_replace_preserves_concatenation ["20".data, "26학년도 운영".data]
    "2026".data "2027".data (by decide) (by decide)

/-- Claim C3 — `_distribute_lengths` returns one share per weight; shares sum
to `total` for every non-empty weight list; the empty list yields `[]`;
`total = 0` yields all zeros; all-zero weights split `total` as evenly as
possible with the extra units on the leftmost entries; in the proportional
case every entry receives its floor base share
`total * weight / sum(weights)` plus at most one leftover unit, and the
entries that receive a leftover unit are upward closed under the hand-out
priority (strictly larger fractional remainder first, ties broken by
ascending original index) — together with the sum conservation this
determines the hand-out uniquely: the leftover units go one each to the
highest-priority entries; the `shares[-1] += remainder` fix-up adds any
remainder still unhandled to the last entry and leaves the others unchanged,
and the hand-out loop exhausts the remainder whenever the residual list is
non-empty, which in the proportional branch is always.  The concrete cases
`distributeLengths 7 [2,3,3] = [2,3,2]` and
`distributeLengths 7 [1,1,1] = [3,2,2]` exhibit the hand-out. -/
theorem C3_distribute_lengths_spec :
    (∀ total weights, (distributeLengths total weights).length = weights.length) ∧
    (∀ total weights, weights ≠ [] → (distributeLengths total weights).sum = total) ∧
    (∀ total, distributeLengths total [] = []) ∧
    (∀ weights, distributeLengths 0 weights = weights.map fun _ => 0) ∧
    (∀ total weights, weights ≠ [] → weights.sum = 0 → ∀ j, j < weights.length →
      (distributeLengths total weights).getD j 0 =
        total / weights.length + if j < total % weights.length then 1 else 0) ∧
    (∀ total weights, weights.sum ≠ 0 → ∀ j, j < weights.length →
      total * weights.getD j 0 / weights.sum ≤
        (distributeLengths total weights).getD j 0) ∧
    distributeLengths 7 [2, 3, 3] = [2, 3, 2] ∧
    distributeLengths 7 [1, 1, 1] = [3, 2, 2] ∧
    (∀ total weights, weights.sum ≠ 0 → ∀ j, j < weights.length →
      (distributeLengths total weights).getD j 0 = baseShare total weights j ∨
      (distributeLengths total weights).getD j 0 = baseShare total weights j + 1) ∧
    (∀ total weights, weights.sum ≠ 0 → ∀ j k, j < weights.length →
      k < weights.length →
      (distributeLengths total weights).getD j 0 = baseShare total weights j + 1 →
      higherPriority total weights k j →
      (distributeLengths total weights).getD k 0 = baseShare total weights k + 1) ∧
    (∀ (shares : List Nat) (r : Nat), shares ≠ [] →
      (bumpLast shares r).getD (shares.length - 1) 0 =
        shares.getD (shares.length - 1) 0 + r) ∧
    (∀ (shares : List Nat) (r j : Nat), j < shares.length - 1 →
      (bumpLast shares r).getD j 0 = shares.getD j 0) ∧
    (∀ (order shares : List Nat) (cursor r : Nat), order ≠ [] →
      (handOut order shares cursor r).2 = 0) := by
  refine ⟨distributeLengths_length, distributeLengths_sum, fun total => rfl,
    ?_, ?_, ?_, by decide, by decide, ?_, ?_, ?_, ?_,
    fun order shares cursor r hne => handOut_snd order hne r shares cursor⟩
  · intro weights
    by_cases hw : weights = []
    · subst hw
      rfl
    · simp [distributeLengths, hw]
  · intro total weights hw hs j hj
    have hn : weights.length ≠ 0 := fun hc => hw (List.eq_nil_of_length_eq_zero hc)
    by_cases ht : total = 0
    · subst ht
      simp only [distributeLengths, if_neg hw, eq_self_iff_true, if_true]
      rw [List.getD_eq_getElem _ _ (by simpa using hj), List.getElem_map]
      simp
    · simp only [distributeLengths, if_neg hw, if_neg ht, if_pos hs]
      exact distributeEven_getD total weights.length hn j hj
  · intro total weights hs j hj
    have hw : weights ≠ [] := by
      intro hc
      subst hc
      simp at hs
    by_cases ht : total = 0
    · subst ht
      simp
    · simp only [distributeLengths, if_neg hw, if_neg ht, if_neg hs]
      exact distributeProportional_base_le total weights j hj
  · intro total weights hs j hj
    have hw : weights ≠ [] := by
      intro hc
      rw [hc] at hs
      exact hs rfl
    by_cases ht : total = 0
    · subst ht
      left
      simp only [distributeLengths, if_neg hw, eq_self_iff_true, if_true]
      rw [List.getD_eq_getElem _ _ (by simpa using hj), List.getElem_map, baseShare]
      simp
    · simp only [distributeLengths, if_neg hw, if_neg ht, if_neg hs]
      rw [distributeProportional_getD_char total weights hw hs j hj]
      have hnodup : ((sortResiduals (((weights.map (fun w => total * w)).map
          (fun raw => raw % weights.sum)).enum.map (fun p => (p.2, p.1)))).map
          (fun p => p.2)).Nodup :=
        (order_perm_range total weights).nodup_iff.mpr (List.nodup_range _)
      have hle1 : (((sortResiduals (((weights.map (fun w => total * w)).map
          (fun raw => raw % weights.sum)).enum.map (fun p => (p.2, p.1)))).map
          (fun p => p.2)).take
            (total - ((weights.map (fun w => total * w)).map
              (fun raw => raw / weights.sum)).sum)).count j ≤ 1 :=
        Nat.le_trans ((List.take_sublist _ _).count_le j)
          (List.nodup_iff_count_le_one.mp hnodup j)
      omega
  · intro total weights hs j k hj hk hone hpr
    have hw : weights ≠ [] := by
      intro hc
      rw [hc] at hs
      exact hs rfl
    by_cases ht : total = 0
    · exfalso
      subst ht
      rw [show distributeLengths 0 weights = weights.map (fun _ => 0) by
          simp [distributeLengths, hw],
        List.getD_eq_getElem _ _ (by simpa using hj), List.getElem_map] at hone
      rw [baseShare] at hone
      simp at hone
    · simp only [distributeLengths, if_neg hw, if_neg ht, if_neg hs] at hone ⊢
      rw [distributeProportional_getD_char total weights hw hs j hj] at hone
      rw [distributeProportional_getD_char total weights hw hs k hk]
      have hnodup : ((sortResiduals (((weights.map (fun w => total * w)).map
          (fun raw => raw % weights.sum)).enum.map (fun p => (p.2, p.1)))).map
          (fun p => p.2)).Nodup :=
        (order_perm_range total weights).nodup_iff.mpr (List.nodup_range _)
      have hcntj : (((sortResiduals (((weights.map (fun w => total * w)).map
          (fun raw => raw % weights.sum)).enum.map (fun p => (p.2, p.1)))).map
          (fun p => p.2)).take
            (total - ((weights.map (fun w => total * w)).map
              (fun raw => raw / weights.sum)).sum)).count j = 1 := by omega
      have hjin : j ∈ (((sortResiduals (((weights.map (fun w => total * w)).map
          (fun raw => raw % weights.sum)).enum.map (fun p => (p.2, p.1)))).map
          (fun p => p.2)).take
            (total - ((weights.map (fun w => total * w)).map
              (fun raw => raw / weights.sum)).sum)) :=
        List.count_pos_iff.mp (by omega)
      have hkin := order_take_mem_of_higherPriority total weights
        (total - ((weights.map (fun w => total * w)).map
          (fun raw => raw / weights.sum)).sum) j k hj hk hjin hpr
      have hcntk_pos : 0 < (((sortResiduals (((weights.map (fun w => total * w)).map
          (fun raw => raw % weights.sum)).enum.map (fun p => (p.2, p.1)))).map
          (fun p => p.2)).take
            (total - ((weights.map (fun w => total * w)).map
              (fun raw => raw / weights.sum)).sum)).count k :=
        List.count_pos_iff.mpr hkin
      have hcntk_le : (((sortResiduals (((weights.map (fun w => total * w)).map
          (fun raw => raw % weights.sum)).enum.map (fun p => (p.2, p.1)))).map
          (fun p => p.2)).take
            (total - ((weights.map (fun w => total * w)).map
              (fun raw => raw / weights.sum)).sum)).count k ≤ 1 :=
        Nat.le_trans ((List.take_sublist _ _).count_le k)
          (List.nodup_iff_count_le_one.mp hnodup k)
      omega
  · intro shares r hne
    have hpos : 0 < shares.length := List.length_pos.mpr hne
    rw [bumpLast, getD_set_nat _ _ _ _ (by omega), if_pos rfl]
  · intro shares r j hj
    rw [bumpLast, getD_set_nat _ _ _ _ (by omega), if_neg (by omega)]

/-- Witness for C3: conservation instantiated at `total = 7`,
`weights = [2, 3, 3]`. -/
theorem C3_distribute_lengths_spec_witness :
    (distributeLengths 7 [2, 3, 3]).sum = 7 :=
  C3_distribute_lengths_spec.2.1 7 [2, 3, 3] (by decide)

/-- Counterexample for C4 — the batch
`[{find: "a", replace: "b"}, {find: "", replace: "x"}]` on the one-run
one-paragraph document `"a"`: the invalid-argument error is reported, but
the first (valid) pair was already applied, so the document text is `"b"`,
not the unchanged `"a"` the claim requires. -/
theorem C4_batch_replace_not_atomic_counterexample :
    (batchReplaceInDoc [[['a']]]
        [((['a'] : List Char), (['b'] : List Char)),
          (([] : List Char), (['x'] : List Char))]) =
      ([[['b']]], none) := by decide

/-- Amended claim C4 — a pair with an empty `find` makes the whole batch
report the invalid-argument error, but the rejection happens when that pair
is reached: pairs ordered before it have already been applied, so the
document is guaranteed unchanged only when the invalid pair comes first
(which is the spec's own example). -/
theorem C4_batch_replace_validation_on_reach :
    (∀ (doc : List (List (List Char))) (rest : List (List Char × List Char))
        (x : List Char),
      batchReplaceInDoc doc (([], x) :: rest) = (doc, none)) ∧
    (∀ (doc : List (List (List Char))) (reps : List (List Char × List Char)),
      (∃ p ∈ reps, p.1 = []) → (batchReplaceInDoc doc reps).2 = none) :=
  ⟨fun _ _ _ => rfl, batchReplaceInDoc_error⟩

/-- Witness for C4 (amended): the error propagates even when the invalid
pair comes second. -/
theorem C4_batch_replace_validation_on_reach_witness :
    (batchReplaceInDoc [[['a']]]
        [((['a'] : List Char), (['b'] : List Char)),
          (([] : List Char), (['x'] : List Char))]).2 = none :=
  C4_batch_replace_validation_on_reach.2 [[['a']]] _ ⟨([], ['x']), by decide, rfl⟩

/-- Counterexample for C5 — deleting the only paragraph of a document whose
paragraph anchors a table with cell text `"x"` blanks the run texts but
leaves the table cell text `"x"` intact — the claim requires the table text
to be blanked as well. -/
theorem C5_delete_only_paragraph_counterexample :
    deleteParagraphFromDoc [⟨[['a']], [[[⟨1, 1, ['x']⟩]]]⟩] 0 =
      some ([⟨[[]], [[[⟨1, 1, ['x']⟩]]]⟩], 1) := by decide

/-- Amended claim C5 — for an in-bounds index, deleting from a
multi-paragraph document removes the paragraph and returns the remaining
count; deleting the only paragraph of a single-paragraph document instead
blanks that paragraph's runs' texts — leaving its anchored tables untouched
— keeps the paragraph count at 1 and returns 1. -/
theorem C5_delete_paragraph_spec :
    (∀ (doc : List Paragraph) (idx : Nat), idx < doc.length → doc.length = 1 →
      deleteParagraphFromDoc doc idx =
        some (doc.set idx { doc.getD idx default with
          runs := (doc.getD idx default).runs.map (fun _ => []) }, 1)) ∧
    (∀ (doc : List Paragraph) (idx : Nat), idx < doc.length → 1 < doc.length →
      deleteParagraphFromDoc doc idx =
        some (doc.eraseIdx idx, doc.length - 1)) := by
  constructor
  · intro doc idx hidx hone
    rw [deleteParagraphFromDoc, if_neg (by omega : ¬ idx ≥ doc.length),
      if_pos (by omega : doc.length ≤ 1), hone]
  · intro doc idx hidx hmulti
    simp only [deleteParagraphFromDoc, if_neg (by omega : ¬ idx ≥ doc.length),
      if_neg (by omega : ¬ doc.length ≤ 1)]

/-- Witness for C5 (amended): the single-paragraph branch instantiated at a
table-free one-run document. -/
theorem C5_delete_paragraph_spec_witness :
    deleteParagraphFromDoc [⟨[['a']], []⟩] 0 = some ([⟨[[]], []⟩], 1) := by
  have h := C5_delete_paragraph_spec.1 [⟨[['a']], []⟩] 0 (by decide) (by decide)
  simpa using h

set_option maxHeartbeats 1600000

/-- Claim C6 — merge the rectangle `(0,0)-(1,1)`, set the anchor's text while
merged, then split `(0,0)`: every cell of the rectangle ends with
`rowSpan = colSpan = 1`, the anchor keeps the text set during the merged
state, every other cell of the rectangle has empty text, and the split
returns the removed span `(2, 2)` — for any grid with at least two rows of
at least two cells (remaining rows, columns, spans and texts arbitrary). -/
theorem C6_merge_split_round_trip (a b c d : Cell) (r0 r1 : List Cell)
    (rs : List (List Cell)) (txt : List Char) :
    (do
      let t1 ← mergeCells ((a :: b :: r0) :: (c :: d :: r1) :: rs) 0 0 1 1
      let t2 ← setCellTextInTable t1 0 0 txt
      splitCell t2 0 0) =
      some ((((⟨1, 1, txt⟩ : Cell) :: (⟨1, 1, []⟩ : Cell) :: r0) ::
        ((⟨1, 1, []⟩ : Cell) :: (⟨1, 1, []⟩ : Cell) :: r1) :: rs), (2, 2)) := by
  rfl

set_option maxHeartbeats 200000

/-- Counterexample for C7 — a document in which the same underlying table
(identity token `0`) is reachable from two paragraph references: the
enumeration produced by `_iter_tables` lists it twice, so two distinct table
indices (0 and 1) denote the same underlying table, contradicting the
claimed deduplication. -/
theorem C7_iter_tables_duplicates_counterexample :
    iterTables [[0], [0]] = [0, 0] ∧ (iterTables [[0], [0]]).count 0 ≠ 1 := by
  decide

/-- Amended claim C7 — the enumeration behind table indices yields one entry
per paragraph→table reference and performs no deduplication: a table's
multiplicity in the enumeration equals the sum of its per-paragraph
reference counts, so a table reachable from `k > 1` paragraphs appears `k`
times, not once. -/
theorem C7_iter_tables_one_entry_per_reference
    (paraTables : List (List Nat)) (t : Nat) :
    (iterTables paraTables).count t =
      (paraTables.map (fun p => p.count t)).sum :=
  count_flatten_eq paraTables t

/-- Claim C8 — `find_in_doc` reports `total_matches` equal to the number of
matches actually returned, never returns more than `max_results` matches,
and once the cap is reached scanning stops: appending further paragraphs to
the document cannot change the result.  Concretely, searching `"a"` with
`max_results = 2` over paragraphs `["aa", "aaa"]` (five occurrences)
returns exactly the two matches inside the first paragraph with
`total_matches = 2`. -/
theorem C8_find_in_doc_cap :
    (∀ (paragraphs : List (List Char)) (needle : List Char)
        (maxR : Nat) (ms : List FindMatch) (total : Nat), 0 < maxR →
      findInDoc paragraphs needle maxR = some (ms, total) →
        total = ms.length ∧ ms.length ≤ maxR) ∧
    (∀ (paragraphs extra : List (List Char)) (needle : List Char)
        (maxR : Nat) (ms : List FindMatch) (total : Nat), 0 < maxR →
      findInDoc paragraphs needle maxR = some (ms, total) → ms.length = maxR →
      findInDoc (paragraphs ++ extra) needle maxR =
        findInDoc paragraphs needle maxR) ∧
    findInDoc ["aa".data, "aaa".data] "a".data 2 =
      some ([⟨0, 0, "aa".data⟩, ⟨0, 1, "aa".data⟩], 2) := by
  refine ⟨?_, ?_, by decide⟩
  · intro paragraphs needle maxR ms total hpos hsome
    by_cases hne : needle = []
    · rw [findInDoc, if_pos hne] at hsome
      exact absurd hsome (by simp)
    · rw [findInDoc, if_neg hne] at hsome
      simp only [Option.some.injEq, Prod.mk.injEq] at hsome
      refine ⟨by rw [← hsome.1, ← hsome.2], ?_⟩
      rw [← hsome.1]
      exact findLoop_cap needle maxR paragraphs 0 [] (by simpa using hpos)
  · intro paragraphs extra needle maxR ms total hpos hsome hcap
    by_cases hne : needle = []
    · rw [findInDoc, if_pos hne] at hsome
      exact absurd hsome (by simp)
    · rw [findInDoc, if_neg hne] at hsome
      simp only [Option.some.injEq, Prod.mk.injEq] at hsome
      have hlen : (findLoop needle maxR paragraphs 0 []).length = maxR := by
        rw [hsome.1, hcap]
      have happ := findLoop_append needle maxR paragraphs 0 [] extra
        (by simpa using hpos) hlen
      rw [findInDoc, findInDoc, if_neg hne, if_neg hne, happ]

/-- Witness for C8: the cap facts instantiated at the concrete two-match
search. -/
theorem C8_find_in_doc_cap_witness :
    2 = ([(⟨0, 0, "aa".data⟩ : FindMatch), ⟨0, 1, "aa".data⟩]).length ∧
      ([(⟨0, 0, "aa".data⟩ : FindMatch), ⟨0, 1, "aa".data⟩]).length ≤ 2 :=
  C8_find_in_doc_cap.1 ["aa".data, "aaa".data] "a".data 2
    [⟨0, 0, "aa".data⟩, ⟨0, 1, "aa".data⟩] 2 (by decide) (by decide)

/-- Claim C9 — `_replace_in_runs` never adds or removes runs: the run list has
the same length after the call as before.  (In this embedding a run is
identified with its text slot in the list, so an unchanged list length and
order is the rendering of "the same run objects, in the same order, with
only their texts mutated".) -/
theorem C9_replace_in_runs_preserves_run_count
    (runs : List (List Char)) (find repl : List Char) (_hf : find ≠ []) :
    (replaceInRuns runs find repl).1.length = runs.length :=
  replaceInRuns_length runs find repl

/-- Witness for C9: the spec's split-run example keeps its two runs. -/
theorem C9_replace_in_runs_preserves_run_count_witness :
    (replaceInRuns ["20".data, "26학년도 운영".data] "2026".data
      "2027".data).1.length = ["20".data, "26학년도 운영".data].length :=
  C9_replace_in_runs_preserves_run_count ["20".data, "26학년도 운영".data]
    "2026".data "2027".data (by decide)

/-- Counterexample for C10 — with the style table `[A, A]`, creating style
`"B"` renames only the last slot, and the previous last name `"A"` is still
listed afterwards (it survives in the first slot) — contradicting the claim
that the last slot's previous name is no longer listed. -/
theorem C10_create_style_counterexample :
    createStyleInDoc [⟨['A'], ['A']⟩, ⟨['A'], ['A']⟩] ['B'] =
      some [⟨['A'], ['A']⟩, ⟨['B'], ['B']⟩] ∧
    ['A'] ∈ ([⟨['A'], ['A']⟩, (⟨['B'], ['B']⟩ : Style)].map Style.name) := by
  decide

/-- Amended claim C10 — `create_style_in_doc` never grows the style table:
with a non-empty table and a fresh (stripped, non-blank) name it renames the
last entry in place, setting both `name` and `engName`; every successful
call leaves the entry count unchanged; an empty style table yields the
error; and the last slot's previous name is no longer listed afterwards
provided it does not also occur in an earlier slot. -/
theorem C10_create_style_renames_last_slot :
    (∀ (styles : List Style) (target : Style) (name : List Char),
      pyStrip name = name → name ≠ [] →
      ¬ name ∈ styles.map Style.name →
      styles.getLast? = some target →
      createStyleInDoc styles name =
        some (styles.dropLast ++ [{ target with name := name, engName := name }])) ∧
    (∀ (styles out : List Style) (name : List Char),
      createStyleInDoc styles name = some out → out.length = styles.length) ∧
    (∀ name : List Char, createStyleInDoc [] name = none) ∧
    (∀ (styles out : List Style) (target : Style) (name : List Char),
      pyStrip name = name → name ≠ [] →
      ¬ name ∈ styles.map Style.name →
      styles.getLast? = some target →
      ¬ target.name ∈ styles.dropLast.map Style.name →
      target.name ≠ name →
      createStyleInDoc styles name = some out →
      ¬ target.name ∈ out.map Style.name) := by
  have hrename : ∀ (styles : List Style) (target : Style) (name : List Char),
      pyStrip name = name → name ≠ [] →
      ¬ name ∈ styles.map Style.name →
      styles.getLast? = some target →
      createStyleInDoc styles name =
        some (styles.dropLast ++ [{ target with name := name, engName := name }]) := by
    intro styles target name hstrip hname hmem hlast
    have hany : (styles.any fun st => st.name = name) = false := by
      rw [List.any_eq_false]
      intro st hst
      simp only [decide_eq_true_eq]
      intro hc
      exact hmem (List.mem_map.mpr ⟨st, hst, hc⟩)
    simp only [createStyleInDoc, hstrip, if_neg hname, hany, Bool.false_eq_true,
      if_false, hlast]
  refine ⟨hrename, ?_, ?_, ?_⟩
  · intro styles out name hout
    simp only [createStyleInDoc] at hout
    by_cases h1 : pyStrip name = []
    · rw [if_pos h1] at hout
      exact absurd hout (by simp)
    · rw [if_neg h1] at hout
      by_cases h2 : (styles.any fun st => st.name = pyStrip name) = true
      · rw [if_pos h2] at hout
        simp only [Option.some.injEq] at hout
        rw [← hout]
      · rw [if_neg h2] at hout
        cases hlast : styles.getLast? with
        | none => rw [hlast] at hout; exact absurd hout (by simp)
        | some target =>
          rw [hlast] at hout
          simp only [Option.some.injEq] at hout
          have hne : styles ≠ [] := by
            intro hc
            rw [hc] at hlast
            simp at hlast
          have hpos : 0 < styles.length := List.length_pos.mpr hne
          rw [← hout]
          simp only [List.length_append, List.length_dropLast,
            List.length_cons, List.length_nil]
          omega
  · intro name
    simp only [createStyleInDoc]
    by_cases h1 : pyStrip name = []
    · rw [if_pos h1]
    · rw [if_neg h1]
      simp
  · intro styles out target name hstrip hname hmem hlast hdup hne hout
    rw [hrename styles target name hstrip hname hmem hlast] at hout
    simp only [Option.some.injEq] at hout
    rw [← hout, List.map_append, List.mem_append]
    rintro (hc | hc)
    · exact hdup hc
    · simp only [List.map_cons, List.map_nil, List.mem_cons, List.not_mem_nil] at hc
      rcases hc with hc | hc
      · exact hne hc
      · exact hc

/-- Witness for C10 (amended): renaming the only slot of a one-entry table. -/
theorem C10_create_style_renames_last_slot_witness :
    createStyleInDoc [⟨['A'], ['A']⟩] ['B'] =
      some ([(⟨['A'], ['A']⟩ : Style)].dropLast ++
        [{ (⟨['A'], ['A']⟩ : Style) with name := ['B'], engName := ['B'] }]) :=
  C10_create_style_renames_last_slot.1 [⟨['A'], ['A']⟩] ⟨['A'], ['A']⟩ ['B']
    (by decide) (by decide) (by decide) (by decide)

end Hwpx
